import Mathlib

/-!
A shallow embedding of `gitshelve.py` (class `gitbook` and class `gitshelve`).

The source keeps the in-memory mirror of the git tree as a Python dict of
dicts.  Inside such a dict two sentinel keys may appear next to the ordinary
child entries: `'__root__'` maps to the cached git tree hash (a string) and
`'__book__'` maps to a `gitbook` instance.  We embed a dict as a `Node` with
the two sentinels as separate optional fields and the remaining keys as an
association list `Entries` (a mutual inductive, so that all recursion over the
tree is structural).  A path segment literally named `"__root__"` or
`"__book__"` would hit the sentinel entries in Python and raise a `TypeError`;
such pathological segments are outside this embedding (they behave here like
ordinary missing children).

Git is modelled as a deterministic content-addressed store: the hash of a blob
is `"B:" ++ data` and the hash of a tree is `"T:" ++ buf` where `buf` is the
exact byte buffer `make_tree` pipes to `git mktree -z`.  This mirrors the one
property of real git the code relies on: hashing is deterministic in the
content, and distinct content yields distinct hashes.  Every git write issued
by the code is recorded as a `GitOp`, so "no object-store I/O" claims are the
statement that the returned `GitOp` list is empty.  Exceptions (`KeyError`,
failed `assert`) are modelled by `Option`.
-/

/-- Embeds class `gitbook` (gitshelve.py lines 141-183): `path`, `name` (the
blob hash, `none` when unknown/invalidated), `data` (`none` while the value is
unmaterialized) and the `dirty` flag. -/
structure Book where
  path : String
  name : Option String
  data : Option String
  dirty : Bool
deriving Repr, DecidableEq

mutual
/-- One dict of the `gitshelve.objects` dict-of-dicts tree: the optional
`'__root__'` sentinel (cached tree hash), the optional `'__book__'` sentinel
(the record stored at this path) and the ordinary child entries. -/
inductive Node where
  | mk (root : Option String) (book : Option Book) (children : Entries)
deriving Repr

/-- Association list of child entries of a dict, in dict order. -/
inductive Entries where
  | nil
  | cons (seg : String) (child : Node) (rest : Entries)
deriving Repr
end

def Node.root : Node → Option String
  | .mk r _ _ => r

def Node.book : Node → Option Book
  | .mk _ b _ => b

def Node.children : Node → Entries
  | .mk _ _ cs => cs

/-- The empty dict `{}`. -/
def Node.empty : Node := .mk none none .nil

/-- `part in d` / `d[part]` for an ordinary (non-sentinel) key. -/
def Entries.lookup : Entries → String → Option Node
  | .nil, _ => none
  | .cons s c rest, p => if s = p then some c else rest.lookup p

/-- `d[part] = n`: replace the first occurrence of the key, else append
(a fresh key enters at the end of the dict). -/
def Entries.update : Entries → String → Node → Entries
  | .nil, p, n => .cons p n .nil
  | .cons s c rest, p, n => if s = p then .cons s n rest else .cons s c (rest.update p n)

/-- `del d[part]` (removes the first occurrence; a Python dict has no
duplicate keys). -/
def Entries.remove : Entries → String → Entries
  | .nil, _ => .nil
  | .cons s c rest, p => if s = p then rest else .cons s c (rest.remove p)

def Entries.length : Entries → Nat
  | .nil => 0
  | .cons _ _ rest => rest.length + 1

/-- `len(d.keys())`: child entries plus the sentinel keys that are present. -/
def Node.keyCount (n : Node) : Nat :=
  (if n.root.isSome then 1 else 0) + (if n.book.isSome then 1 else 0) + n.children.length

/-- The test `len(obj.keys()) == 1 and '__book__' in obj` used by `make_tree`
(line 310), `__contains__` (line 496) and `walker` (line 509). -/
def Node.isLeafBook (n : Node) : Bool :=
  n.keyCount == 1 && n.book.isSome

/-- One pass of Python's `string.split(path, '/')`: accumulate the current
segment (reversed) and cut at every separator. -/
def splitSeg : List Char → List Char → List String
  | [], acc => [String.mk acc.reverse]
  | c :: rest, acc =>
    if c = '/' then String.mk acc.reverse :: splitSeg rest []
    else splitSeg rest (c :: acc)

/-- `string.split(path, os.sep)` with `os.sep = "/"` (Python semantics: the
result is never empty, empty segments are kept). -/
def splitPath (p : String) : List String := splitSeg p.data []

/-! ## The content-addressed object store -/

/-- `gitbook.serialize_data` (line 167) is the identity; `make_tree` applies
it to `book.data`, which for every record reachable through the write API is a
present value.  (With `data = None` the source would pipe an empty input to
`git hash-object`, which the `getD ""` mirrors.) -/
def serializeData (d : Option String) : String := d.getD ""

/-- Deterministic stand-in for `git hash-object --stdin` (lines 290-294). -/
def hashBlob (data : String) : String := "B:" ++ data

/-- Deterministic stand-in for `git mktree -z` applied to the buffer
`make_tree` accumulates. -/
def hashTree (buf : String) : String := "T:" ++ buf

/-- Deterministic stand-in for `git commit-tree` (lines 342-352). -/
def hashCommit (tree : String) (parent : Option String) (msg : String) : String :=
  "C:" ++ tree ++ ";" ++ (parent.getD "-") ++ ";" ++ msg

/-- `git cat-file blob` (line 287-288): recovers the content of a blob hash
produced by `hashBlob` (inverse of `hashBlob` on its range). -/
def getBlob (h : String) : String := h.drop 2

/-- One git write issued by the shelf: `hash-object -w` (blob), `mktree`
(tree, carrying the exact input buffer), or `commit-tree`. -/
inductive GitOp where
  | blobW (data : String)
  | treeW (input : String)
  | commitW (tree : String) (parent : Option String) (msg : String)
deriving Repr, DecidableEq

/-- `"100644 blob %s\t%s\0" % (name, path)` (line 322). -/
def blobLine (name : String) (path : String) : String :=
  "100644 blob " ++ name ++ "\t" ++ path ++ "\x00"

/-- `"040000 tree %s\t%s\0" % (name, path)` (line 333). -/
def treeLine (name : String) (path : String) : String :=
  "040000 tree " ++ name ++ "\t" ++ path ++ "\x00"

/-! ## gitbook operations -/

/-- `gitbook.get_data` (lines 155-159).  Returns the value together with a
flag recording whether a `cat-file` read was issued (the lazy load).  `none`
models the `assert self.name is not None` failing. -/
def getData? (b : Book) : Option (String × Bool) :=
  match b.data with
  | some d => some (d, false)
  | none =>
    match b.name with
    | some h => some (getBlob h, true)
    | none => none

/-- `gitbook.set_data` (lines 161-165): compare against the in-memory `data`
attribute (no load is forced); on change drop the hash, store the value and
set the dirty flag. -/
def setData (b : Book) (v : String) : Book :=
  if some v ≠ b.data then Book.mk b.path none (some v) true else b

/-! ## Path resolution and the CRUD operations -/

/-- `gitshelve.get_tree` without `make_dirs` (lines 416-423): walk the dict
chain, `none` models the `KeyError` on a missing segment. -/
def getTree? : Node → List String → Option Node
  | n, [] => some n
  | .mk _ _ cs, p :: ps =>
    match cs.lookup p with
    | some c => getTree? c ps
    | none => none

/-- `gitshelve.__setitem__` (lines 462-468) restricted to the tree: walk with
`make_dirs=True` (missing segments become `{}`), and at the terminal dict
install `d['__book__']` — clearing the dict first when no book is present —
then `set_data`.  `path` is the full path string the fresh `gitbook` is
constructed with. -/
def setAt : Node → List String → String → String → Node
  | .mk r bk cs, [], path, v =>
    match bk with
    | some b => Node.mk r (some (setData b v)) cs
    | none => Node.mk none (some (setData (Book.mk path none none false) v)) .nil
  | .mk r bk cs, p :: ps, path, v =>
    Node.mk r bk (cs.update p (setAt ((cs.lookup p).getD Node.empty) ps path v))

/-- The tree part of `gitshelve.put` (lines 436-448): walk with
`make_dirs=True`, then `d.clear(); d['__book__'] = book` with an already
clean book. -/
def putAt : Node → List String → Book → Node
  | _, [], b => Node.mk none (some b) .nil
  | .mk r bk cs, p :: ps, b =>
    Node.mk r bk (cs.update p (putAt ((cs.lookup p).getD Node.empty) ps b))

/-- `gitshelve.__getitem__` (lines 450-460): resolve the path, `KeyError`
(`none`) when resolution fails or the dict is empty or has no `'__book__'`
key, else `get_data` on the book.  (A dict with a book is non-empty, so the
`if d and ('__book__' in d)` test reduces to the book being present.) -/
def readAt? (n : Node) (ps : List String) : Option (String × Bool) :=
  match getTree? n ps with
  | none => none
  | some d =>
    match d.book with
    | some b => getData? b
    | none => none

/-- `gitshelve.__contains__` (lines 494-496): `get_tree` is NOT guarded by a
`try`, so a missing segment propagates `KeyError` (`none`); otherwise the
result is `len(d.keys()) == 1 and ('__book__' in d)`. -/
def containsAt? (n : Node) (ps : List String) : Option Bool :=
  (getTree? n ps).map (fun d => d.isLeafBook)

/-- The root strip performed in the upward walk of `prune_tree`
(lines 477-481): `del objects['__root__']`, and for every child dict
`del objects[tree]['__root__']`.  When the dict itself holds a `'__book__'`
entry the loop hits the gitbook with `'__root__' in <gitbook>` and dies with
a `TypeError`, modelled by `none`. -/
def stripChildRoots : Entries → Entries
  | .nil => .nil
  | .cons s (.mk _ cb cc) rest => .cons s (Node.mk none cb cc) (stripChildRoots rest)

def stripRoots : Node → Option Node
  | .mk _ bk cs =>
    if bk.isSome then none
    else some (Node.mk none bk (stripChildRoots cs))

/-- The guard `left > 0 or len(objects[paths[0]]) > int(has_root)` of
`prune_tree` (line 476), evaluated after the recursive call. -/
def pruneStop (left : Int) (c : Node) : Bool :=
  left > 0 || (c.keyCount : Int) > (if c.root.isSome then 1 else 0)

/-- `gitshelve.prune_tree` (lines 470-486).  Returns the updated dict and the
Python return value (an `Int`, since the base case returns `len - 1` which can
be `-1`).  `none` models a `KeyError` on a missing segment (the source mutates
nothing before its first failing `objects[paths[0]]` access, so the tree is
unchanged on failure).  The list argument is never `[]` (a split is never
empty). -/
def prune? : Node → List String → Option (Node × Int)
  | _, [] => none
  | .mk r bk cs, [p] =>
    match cs.lookup p with
    | none => none
    | some c => some (Node.mk r bk (cs.remove p), (c.keyCount : Int) - 1)
  | .mk r bk cs, p :: ps =>
    match cs.lookup p with
    | none => none
    | some c =>
      match prune? c ps with
      | none => none
      | some (c', left) =>
        if pruneStop left c' then
          match stripRoots (Node.mk r bk (cs.update p c')) with
          | none => none
          | some n' => some (n', 3)
        else
          some (Node.mk r bk ((cs.update p c').remove p), (c'.keyCount : Int) - 1)

/-! ## make_tree -/

mutual
/-- `gitshelve.make_tree` (lines 296-340) together with its per-child loop.

`make_tree n` returns `(updated dict, returned hash, git writes issued,
number of make_tree invocations including this one)`.  The loop result
carries `(updated children, mktree buffer, git writes, root-invalidated flag,
make_tree invocations)`; the flag records whether any `root = None` assignment
fired (a dirty book was flushed, line 320, or a child tree's name differed
from its cached `'__root__'`, lines 330-331).  A `'__book__'` entry of the
dict itself fails the `assert isinstance(obj, dict)` (line 308), modelled by
`none`.  Comment accumulation is omitted: the default
`gitbook.change_comment` returns `None` and contributes nothing. -/
def make_tree : Node → Option (Node × String × List GitOp × Nat)
  | .mk r b cs =>
    if b.isSome then none
    else
      match mtEntries cs with
      | none => none
      | some (cs', buf, ops, inval, calls) =>
        if inval || r.isNone then
          some (Node.mk (some (hashTree buf)) b cs', hashTree buf,
                ops ++ [GitOp.treeW buf], calls + 1)
        else
          some (Node.mk r b cs', r.getD "", ops, calls + 1)

/-- The child loop of `make_tree` (lines 303-333). -/
def mtEntries : Entries → Option (Entries × String × List GitOp × Bool × Nat)
  | .nil => some (.nil, "", [], false, 0)
  | .cons p c rest =>
    if c.isLeafBook then
      match c.book with
      | none => none
      | some b =>
        let b' := if b.dirty then
            Book.mk b.path (some (hashBlob (serializeData b.data))) b.data false
          else b
        let ops₁ : List GitOp := if b.dirty then [GitOp.blobW (serializeData b.data)] else []
        match mtEntries rest with
        | none => none
        | some (rest', buf, ops, inval, calls) =>
          some (.cons p (Node.mk c.root (some b') c.children) rest',
                blobLine ((b'.name).getD "None") p ++ buf,
                ops₁ ++ ops, b.dirty || inval, calls)
    else
      match make_tree c with
      | none => none
      | some (c', name, ops₁, calls₁) =>
        match mtEntries rest with
        | none => none
        | some (rest', buf, ops, inval, calls) =>
          some (.cons p c' rest', treeLine name p ++ buf, ops₁ ++ ops,
                (some name != c.root) || inval, calls₁ + calls)
end

/-! ## The shelf -/

/-- The mutable state of a `gitshelve` instance (lines 197-213): `objects`
(the top-level dict), `head`, the global `dirty` flag and the `keep_history`
switch. -/
structure Shelve where
  objects : Node
  head : Option String
  dirty : Bool
  keepHistory : Bool
deriving Repr

def Shelve.fresh (keepHistory : Bool) : Shelve :=
  Shelve.mk Node.empty none false keepHistory

/-- `shelf[path] = data`: `__setitem__` also sets `self.dirty = True`
unconditionally (line 468). -/
def Shelve.setItem (s : Shelve) (path : String) (data : String) : Shelve :=
  Shelve.mk (setAt s.objects (splitPath path) path data) s.head true s.keepHistory

/-- `shelf[path]` (`__getitem__`). -/
def Shelve.getItem? (s : Shelve) (path : String) : Option (String × Bool) :=
  readAt? s.objects (splitPath path)

/-- `path in shelf` (`__contains__`). -/
def Shelve.containsItem? (s : Shelve) (path : String) : Option Bool :=
  containsAt? s.objects (splitPath path)

/-- `del shelf[path]` (`__delitem__`, lines 488-492): `prune_tree` on the
split path; on success `prune_tree`'s base case has set `self.dirty = True`. -/
def Shelve.delItem? (s : Shelve) (path : String) : Option Shelve :=
  match prune? s.objects (splitPath path) with
  | none => none
  | some (n', _) => some (Shelve.mk n' s.head true s.keepHistory)

/-- `gitshelve.put` (lines 436-448): write the blob, build the two-level
hash-derived path, `d.clear(); d['__book__'] = book` there, set the shelf
dirty.  Returns the new shelf, the identity handed back to the caller and the
git write issued. -/
def Shelve.put (s : Shelve) (data : String) : Shelve × String × List GitOp :=
  let name := hashBlob (serializeData (some data))
  let path := name.take 2 ++ "/" ++ name.drop 2
  let book := Book.mk path (some name) (some data) false
  (Shelve.mk (putAt s.objects (splitPath path) book) s.head true s.keepHistory,
   name, [GitOp.blobW (serializeData (some data))])

/-- `gitshelve.get` (lines 425-434): rebuild the two-level path from the key
and read the record there. -/
def Shelve.getKey? (s : Shelve) (key : String) : Option (String × Bool) :=
  readAt? s.objects (splitPath (key.take 2 ++ "/" ++ key.drop 2))

/-- `gitshelve.commit` (lines 354-370) with an explicit comment: a no-op
returning `self.head` when the shelf is not dirty; otherwise `make_tree` on
the top dict followed by `make_commit` (lines 342-352), which parents the new
commit on `self.head` only when a head exists and history is kept.  Returns
`(new shelf, returned commit name, git writes issued)`. -/
def Shelve.commit? (s : Shelve) (msg : String) : Option (Shelve × Option String × List GitOp) :=
  if s.dirty = false then some (s, s.head, [])
  else
    match make_tree s.objects with
    | none => none
    | some (n', tree, ops, _) =>
      let parent := if s.head.isSome && s.keepHistory then s.head else none
      let name := hashCommit tree parent msg
      some (Shelve.mk n' (some name) false s.keepHistory, some name,
            ops ++ [GitOp.commitW tree parent msg])

/-! ## Structural predicates

`cleanB` says a dict is a fully committed subtree as far as `make_tree`'s
reuse test can see: its own `'__root__'` is cached, it is a genuine tree dict
(no `'__book__'` of its own), and every child is either a record leaf whose
book is not dirty or recursively clean.  `canonBuf` is the `mktree` buffer
`make_tree` would build for the dict; `committedB` additionally demands that
every cached hash is truthful (the `'__root__'` really is the hash of the
canonical buffer and every book's `name` really is the hash of its loaded
`data`) — exactly the state a `commit` leaves behind for trees built through
the write API. -/

mutual
def Node.cleanB : Node → Bool
  | .mk r b cs => r.isSome && b.isNone && cs.cleanE

def Entries.cleanE : Entries → Bool
  | .nil => true
  | .cons _ c rest =>
    (if c.isLeafBook then
      (match c.book with
       | some b => !b.dirty
       | none => false)
     else c.cleanB) && rest.cleanE
end

/-- A book whose hash is truthful: the value is materialized, not dirty, and
`name` is the blob hash of the value. -/
def Book.consistent (b : Book) : Bool :=
  !b.dirty &&
  (match b.data with
   | some d => b.name == some (hashBlob d)
   | none => false)

mutual
/-- The `mktree` buffer `make_tree` would emit for this dict (children in
dict order; a clean consistent book contributes its cached name, a dirty one
the hash of its data — identical strings for consistent books). -/
def Node.canonBuf : Node → String
  | .mk _ _ cs => cs.canonBufE

def Entries.canonBufE : Entries → String
  | .nil => ""
  | .cons p c rest =>
    (if c.isLeafBook then
      blobLine (hashBlob (serializeData (match c.book with
        | some b => b.data
        | none => none))) p
     else treeLine (hashTree c.canonBuf) p) ++ rest.canonBufE
end

mutual
/-- The state of a tree dict just after a successful `commit` (for shelves
populated through the write API): clean, and every cached hash truthful. -/
def Node.committedB : Node → Bool
  | .mk r b cs => b.isNone && r == some (hashTree cs.canonBufE) && cs.committedE

def Entries.committedE : Entries → Bool
  | .nil => true
  | .cons _ c rest =>
    (if c.isLeafBook then
      (match c.book with
       | some b => b.consistent
       | none => false)
     else c.committedB) && rest.committedE
end

mutual
/-- The spec's container/value dichotomy: a dict holding a `'__book__'` holds
nothing else (no children, no cached root). -/
def Node.wfB : Node → Bool
  | .mk r b cs =>
    (match b with
     | some _ => r.isNone && cs.length == 0
     | none => true) && cs.wfE

def Entries.wfE : Entries → Bool
  | .nil => true
  | .cons _ c rest => c.wfB && rest.wfE
end

/-! ## Basic lemmas about dict entries and strings -/

theorem Node.eta (n : Node) : Node.mk n.root n.book n.children = n := by
  cases n
  rfl

theorem Entries.lookup_update_self :
    ∀ (es : Entries) (p : String) (x : Node), (es.update p x).lookup p = some x
  | .nil, p, x => by simp [Entries.update, Entries.lookup]
  | .cons s c rest, p, x => by
    by_cases h : s = p
    · simp [Entries.update, h, Entries.lookup]
    · simp [Entries.update, h, Entries.lookup, Entries.lookup_update_self rest p x]

theorem Entries.lookup_update_ne :
    ∀ (es : Entries) (p q : String) (x : Node), q ≠ p →
      (es.update p x).lookup q = es.lookup q
  | .nil, p, q, x, h => by
    have hpq : ¬ p = q := fun hh => h hh.symm
    simp [Entries.update, Entries.lookup, hpq]
  | .cons s c rest, p, q, x, h => by
    by_cases hs : s = p
    · subst hs
      have hsq : ¬ s = q := fun hh => h hh.symm
      simp [Entries.update, Entries.lookup, hsq]
    · simp [Entries.update, hs, Entries.lookup, Entries.lookup_update_ne rest p q x h]

theorem Entries.update_eq_of_lookup :
    ∀ (es : Entries) (p : String) (x : Node), es.lookup p = some x → es.update p x = es
  | .nil, p, x, h => by simp [Entries.lookup] at h
  | .cons s c rest, p, x, h => by
    by_cases hs : s = p
    · subst hs
      simp [Entries.lookup] at h
      simp [Entries.update, h]
    · simp [Entries.lookup, hs] at h
      simp [Entries.update, hs, Entries.update_eq_of_lookup rest p x h]

theorem Entries.update_update :
    ∀ (es : Entries) (p : String) (x y : Node), (es.update p x).update p y = es.update p y
  | .nil, p, x, y => by simp [Entries.update]
  | .cons s c rest, p, x, y => by
    by_cases hs : s = p
    · simp [Entries.update, hs]
    · simp [Entries.update, hs, Entries.update_update rest p x y]

theorem strAppCancelLeft (a b c : String) (h : a ++ b = a ++ c) : b = c := by
  have hd : a.data ++ b.data = a.data ++ c.data := by
    have := congrArg String.data h
    simpa [String.data_append] using this
  have := List.append_cancel_left hd
  cases b
  cases c
  simp_all

theorem strAppCancelRight (a b c : String) (h : a ++ c = b ++ c) : a = b := by
  have hd : a.data ++ c.data = b.data ++ c.data := by
    have := congrArg String.data h
    simpa [String.data_append] using this
  have := List.append_cancel_right hd
  cases a
  cases b
  simp_all

theorem hashBlob_inj (a b : String) (h : hashBlob a = hashBlob b) : a = b :=
  strAppCancelLeft "B:" a b h

theorem hashTree_inj (a b : String) (h : hashTree a = hashTree b) : a = b :=
  strAppCancelLeft "T:" a b h

theorem blobLine_inj_name (a b p : String) (h : blobLine a p = blobLine b p) : a = b := by
  have h1 : a ++ ("\t" ++ p ++ "\x00") = b ++ ("\t" ++ p ++ "\x00") := by
    have := strAppCancelLeft "100644 blob " (a ++ ("\t" ++ p ++ "\x00"))
      (b ++ ("\t" ++ p ++ "\x00")) (by
        unfold blobLine at h
        calc "100644 blob " ++ (a ++ ("\t" ++ p ++ "\x00"))
            = "100644 blob " ++ a ++ "\t" ++ p ++ "\x00" := by
              simp [String.append_assoc]
          _ = "100644 blob " ++ b ++ "\t" ++ p ++ "\x00" := h
          _ = "100644 blob " ++ (b ++ ("\t" ++ p ++ "\x00")) := by
              simp [String.append_assoc])
    exact this
  exact strAppCancelRight a b ("\t" ++ p ++ "\x00") h1

theorem treeLine_inj_name (a b p : String) (h : treeLine a p = treeLine b p) : a = b := by
  have h1 : a ++ ("\t" ++ p ++ "\x00") = b ++ ("\t" ++ p ++ "\x00") := by
    have := strAppCancelLeft "040000 tree " (a ++ ("\t" ++ p ++ "\x00"))
      (b ++ ("\t" ++ p ++ "\x00")) (by
        unfold treeLine at h
        calc "040000 tree " ++ (a ++ ("\t" ++ p ++ "\x00"))
            = "040000 tree " ++ a ++ "\t" ++ p ++ "\x00" := by
              simp [String.append_assoc]
          _ = "040000 tree " ++ b ++ "\t" ++ p ++ "\x00" := h
          _ = "040000 tree " ++ (b ++ ("\t" ++ p ++ "\x00")) := by
              simp [String.append_assoc])
    exact this
  exact strAppCancelRight a b ("\t" ++ p ++ "\x00") h1

/-! ## Lemmas about path resolution after writes -/

theorem getTree?_nil (n : Node) : getTree? n [] = some n := by simp [getTree?]

theorem getTree?_cons (r : Option String) (bk : Option Book) (cs : Entries)
    (p : String) (ps : List String) :
    getTree? (Node.mk r bk cs) (p :: ps) =
      match cs.lookup p with
      | some c => getTree? c ps
      | none => none := by simp [getTree?]

theorem getTree?_empty_cons (p : String) (ps : List String) :
    getTree? Node.empty (p :: ps) = none := by
  simp [Node.empty, getTree?, Entries.lookup]

/-- Read-your-writes: a `get` issued right after a `set` of the same path
returns the written value out of memory, without touching the object store. -/
theorem readAt?_setAt :
    ∀ (ps : List String) (n : Node) (path v : String),
      readAt? (setAt n ps path v) ps = some (v, false)
  | [], .mk r bk cs, path, v => by
    cases bk with
    | some b =>
      obtain ⟨bp, bn, bd, bdy⟩ := b
      by_cases hv : some v = bd
      · subst hv
        simp [setAt, readAt?, getTree?, Node.book, setData, getData?]
      · simp [setAt, readAt?, getTree?, Node.book, setData, hv, getData?]
    | none =>
      simp [setAt, readAt?, getTree?, Node.book, setData, getData?]
  | p :: ps, .mk r bk cs, path, v => by
    have ih := readAt?_setAt ps ((cs.lookup p).getD Node.empty) path v
    simp only [readAt?] at ih ⊢
    simp only [setAt, getTree?_cons, Entries.lookup_update_self]
    exact ih

/-- What `set` leaves at the terminal dict of an already-resolvable path:
with a book present only `set_data` runs; without one the dict is cleared and
a fresh dirty record holding the value is installed. -/
theorem getTree?_setAt_point :
    ∀ (ps : List String) (n : Node) (path v : String) (d : Node),
      getTree? n ps = some d →
      getTree? (setAt n ps path v) ps = some
        (match d.book with
         | some b => Node.mk d.root (some (setData b v)) d.children
         | none => Node.mk none (some (setData (Book.mk path none none false) v)) .nil)
  | [], .mk r bk cs, path, v, d, h => by
    rw [getTree?_nil, Option.some_inj] at h
    subst h
    cases bk with
    | some b => simp [setAt, getTree?, Node.book, Node.root, Node.children]
    | none => simp [setAt, getTree?, Node.book]
  | p :: ps, .mk r bk cs, path, v, d, h => by
    rw [getTree?_cons] at h
    cases hl : cs.lookup p with
    | none => rw [hl] at h; exact absurd h (by simp)
    | some c =>
      rw [hl] at h
      simp only [setAt, hl, Option.getD_some, getTree?_cons, Entries.lookup_update_self]
      exact getTree?_setAt_point ps c path v d h

/-- Frame property of `set`: a path that diverges from the written path at
some segment resolves exactly as before the write. -/
theorem getTree?_setAt_diverge :
    ∀ (pre : List String) (n : Node) (a : String) (ps : List String)
      (b : String) (qs : List String) (path v : String), a ≠ b →
      getTree? (setAt n (pre ++ a :: ps) path v) (pre ++ b :: qs) =
        getTree? n (pre ++ b :: qs)
  | [], .mk r bk cs, a, ps, b, qs, path, v, hab => by
    simp only [List.nil_append, setAt, getTree?_cons]
    rw [Entries.lookup_update_ne cs a b _ (fun h => hab h.symm)]
  | x :: pre, .mk r bk cs, a, ps, b, qs, path, v, hab => by
    simp only [List.cons_append, setAt, getTree?_cons, Entries.lookup_update_self]
    cases hl : cs.lookup x with
    | some c =>
      simp only [hl, Option.getD_some]
      exact getTree?_setAt_diverge pre c a ps b qs path v hab
    | none =>
      simp only [hl, Option.getD_none]
      rw [show pre.append (a :: ps) = pre ++ a :: ps from rfl,
        getTree?_setAt_diverge pre Node.empty a ps b qs path v hab]
      cases pre with
      | nil => simp [getTree?_empty_cons]
      | cons y pre2 => simp [getTree?_empty_cons]

/-- A `set` whose `set_data` is a no-op on the record leaves the whole tree
untouched. -/
theorem setAt_noop :
    ∀ (ps : List String) (n : Node) (path v : String) (d : Node) (b : Book),
      getTree? n ps = some d → d.book = some b → setData b v = b →
      setAt n ps path v = n
  | [], .mk r bk cs, path, v, d, b, h, hb, hnoop => by
    rw [getTree?_nil, Option.some_inj] at h
    subst h
    simp only [Node.book] at hb
    subst hb
    simp [setAt, hnoop]
  | p :: ps, .mk r bk cs, path, v, d, b, h, hb, hnoop => by
    rw [getTree?_cons] at h
    cases hl : cs.lookup p with
    | none => rw [hl] at h; exact absurd h (by simp)
    | some c =>
      rw [hl] at h
      have ih := setAt_noop ps c path v d b h hb hnoop
      simp only [setAt, hl, Option.getD_some, ih]
      rw [Entries.update_eq_of_lookup cs p c hl]

/-! ## Lemmas about `put` -/

theorem getTree?_putAt :
    ∀ (ps : List String) (n : Node) (b : Book),
      getTree? (putAt n ps b) ps = some (Node.mk none (some b) .nil)
  | [], n, b => by simp [putAt, getTree?]
  | p :: ps, .mk r bk cs, b => by
    simp only [putAt, getTree?_cons, Entries.lookup_update_self]
    exact getTree?_putAt ps ((cs.lookup p).getD Node.empty) b

theorem readAt?_putAt (ps : List String) (n : Node) (b : Book) :
    readAt? (putAt n ps b) ps = getData? b := by
  simp [readAt?, getTree?_putAt, Node.book]

/-- Re-`put` of the same record at the same path changes nothing. -/
theorem putAt_putAt :
    ∀ (ps : List String) (n : Node) (b : Book),
      putAt (putAt n ps b) ps b = putAt n ps b
  | [], n, b => by simp [putAt]
  | p :: ps, .mk r bk cs, b => by
    simp only [putAt, Entries.lookup_update_self, Option.getD_some]
    rw [putAt_putAt ps ((cs.lookup p).getD Node.empty) b, Entries.update_update]

/-! ## make_tree on clean and on committed subtrees -/

mutual
/-- The short-circuit of `make_tree` on a clean subtree: the cached
`'__root__'` is returned, no git command is issued, and the dict is left
untouched — but the recursion does walk into every child dict (`k` counts
the `make_tree` invocations and is larger than 1 whenever children dicts
exist). -/
theorem make_tree_clean : ∀ (n : Node), n.cleanB = true →
    ∃ k, make_tree n = some (n, n.root.getD "", [], k)
  | .mk r bk cs, h => by
    simp only [Node.cleanB, Bool.and_eq_true, Option.isSome_iff_exists,
      Option.isNone_iff_eq_none] at h
    obtain ⟨⟨⟨rt, hr⟩, hbk⟩, hcs⟩ := h
    obtain ⟨buf, k, hmt⟩ := mtEntries_clean cs hcs
    subst hbk
    subst hr
    refine ⟨k + 1, ?_⟩
    simp [make_tree, hmt, Node.root]

theorem mtEntries_clean : ∀ (es : Entries), es.cleanE = true →
    ∃ buf k, mtEntries es = some (es, buf, [], false, k)
  | .nil, _ => ⟨"", 0, by simp [mtEntries]⟩
  | .cons p c rest, h => by
    simp only [Entries.cleanE, Bool.and_eq_true] at h
    obtain ⟨hc, hrest⟩ := h
    obtain ⟨buf, k, hmt⟩ := mtEntries_clean rest hrest
    by_cases hleaf : c.isLeafBook
    · rw [if_pos hleaf] at hc
      cases hb : c.book with
      | none => rw [hb] at hc; exact absurd hc (by simp)
      | some b =>
        rw [hb] at hc
        simp only [Bool.not_eq_true'] at hc
        refine ⟨blobLine ((b.name).getD "None") p ++ buf, k, ?_⟩
        simp only [mtEntries, hleaf, if_true, hb, hmt, hc, Bool.false_or,
          if_false]
        cases c with
        | mk cr cb cc =>
          simp only [Node.book] at hb
          subst hb
          rfl
    · rw [if_neg hleaf] at hc
      obtain ⟨k₁, hmtc⟩ := make_tree_clean c hc
      have hroot : ∃ rt, c.root = some rt := by
        cases c with
        | mk cr cb cc =>
          simp only [Node.cleanB, Bool.and_eq_true, Option.isSome_iff_exists] at hc
          exact hc.1.1
      obtain ⟨rt, hrt⟩ := hroot
      refine ⟨treeLine rt p ++ buf, k₁ + k, ?_⟩
      simp [mtEntries, hleaf, hmtc, hmt, hrt]
end

/-- The buffer line `make_tree` emits for one child of a committed dict. -/
def canonLine (p : String) (c : Node) : String :=
  if c.isLeafBook then
    blobLine (hashBlob (serializeData (match c.book with
      | some b => b.data
      | none => none))) p
  else treeLine (hashTree c.canonBuf) p

theorem canonBufE_cons (p : String) (c : Node) (rest : Entries) :
    (Entries.cons p c rest).canonBufE = canonLine p c ++ rest.canonBufE := by
  simp [Entries.canonBufE, canonLine]

theorem canonBuf_mk (r : Option String) (bk : Option Book) (cs : Entries) :
    (Node.mk r bk cs).canonBuf = cs.canonBufE := by
  simp [Node.canonBuf]

/-- The per-child conjunct of `Entries.committedE`. -/
def headCommitted (c : Node) : Bool :=
  if c.isLeafBook then
    (match c.book with
     | some b => b.consistent
     | none => false)
  else c.committedB

theorem committedE_cons (p : String) (c : Node) (rest : Entries) :
    (Entries.cons p c rest).committedE = (headCommitted c && rest.committedE) := by
  simp [Entries.committedE, headCommitted]

mutual
/-- On a fully committed (clean with truthful caches) subtree, `make_tree`
returns the cached root — which equals the hash of the canonical buffer —
issues no git command, and leaves the dict untouched. -/
theorem make_tree_committed : ∀ (n : Node), n.committedB = true →
    ∃ k, make_tree n = some (n, hashTree n.canonBuf, [], k)
  | .mk r bk cs, h => by
    simp only [Node.committedB, Bool.and_eq_true, Option.isNone_iff_eq_none,
      beq_iff_eq] at h
    obtain ⟨⟨hbk, hr⟩, hcs⟩ := h
    obtain ⟨k, hmt⟩ := mtEntries_committed cs hcs
    subst hbk
    subst hr
    refine ⟨k + 1, ?_⟩
    simp [make_tree, hmt, canonBuf_mk]

theorem mtEntries_committed : ∀ (es : Entries), es.committedE = true →
    ∃ k, mtEntries es = some (es, es.canonBufE, [], false, k)
  | .nil, _ => ⟨0, by simp [mtEntries, Entries.canonBufE]⟩
  | .cons p c rest, h => by
    rw [committedE_cons, Bool.and_eq_true] at h
    obtain ⟨hc, hrest⟩ := h
    obtain ⟨k, hmt⟩ := mtEntries_committed rest hrest
    rw [canonBufE_cons]
    unfold headCommitted at hc
    obtain ⟨cr, cb, cc⟩ := c
    by_cases hleaf : (Node.mk cr cb cc).isLeafBook
    · rw [if_pos hleaf] at hc
      simp only [Node.book] at hc
      cases cb with
      | none => exact absurd hc (by simp)
      | some b =>
        obtain ⟨bp, bn, bd, bdy⟩ := b
        simp only [Book.consistent, Bool.and_eq_true, Bool.not_eq_true'] at hc
        obtain ⟨hdy, hnm⟩ := hc
        subst hdy
        cases bd with
        | none => exact absurd hnm (by simp)
        | some dv =>
          simp only [beq_iff_eq] at hnm
          subst hnm
          refine ⟨k, ?_⟩
          simp [mtEntries, hleaf, hmt, canonLine, Node.book, Node.root,
            Node.children, serializeData]
    · rw [if_neg hleaf] at hc
      obtain ⟨k₁, hmtc⟩ := make_tree_committed (Node.mk cr cb cc) hc
      have hrt : (Node.mk cr cb cc).root
          = some (hashTree (Node.mk cr cb cc).canonBuf) := by
        simp only [Node.committedB, Bool.and_eq_true, beq_iff_eq] at hc
        rw [Node.root, hc.1.2, canonBuf_mk]
      refine ⟨k₁ + k, ?_⟩
      simp [mtEntries, hleaf, hmtc, hmt, hrt, canonLine]
end

/-! ## Small structural facts -/

theorem Entries.length_zero : ∀ (es : Entries), es.length = 0 → es = .nil
  | .nil, _ => rfl
  | .cons _ _ rest, h => by simp [Entries.length] at h

/-- A dict passing the leaf test holds exactly the book: no cached root, no
children. -/
theorem isLeafBook_shape (r : Option String) (bk : Option Book) (cs : Entries)
    (h : (Node.mk r bk cs).isLeafBook = true) :
    r = none ∧ cs = .nil ∧ bk.isSome = true := by
  simp only [Node.isLeafBook, Node.keyCount, Node.root, Node.book, Node.children,
    Bool.and_eq_true, beq_iff_eq] at h
  obtain ⟨hcount, hbk⟩ := h
  simp only [hbk, if_true] at hcount
  cases hr : r.isSome with
  | true => simp only [hr, if_true] at hcount; omega
  | false =>
    simp only [hr, if_false] at hcount
    have hlen : cs.length = 0 := by omega
    refine ⟨?_, Entries.length_zero cs hlen, hbk⟩
    cases r with
    | none => rfl
    | some x => simp at hr

theorem committedB_parts (r : Option String) (bk : Option Book) (cs : Entries)
    (h : (Node.mk r bk cs).committedB = true) :
    bk = none ∧ r = some (hashTree cs.canonBufE) ∧ cs.committedE = true := by
  simp only [Node.committedB, Bool.and_eq_true, Option.isNone_iff_eq_none,
    beq_iff_eq] at h
  exact ⟨h.1.1, h.1.2, h.2⟩

theorem committedE_lookup :
    ∀ (es : Entries) (p : String) (c : Node),
      es.committedE = true → es.lookup p = some c → headCommitted c = true
  | .nil, p, c, _, hl => by simp [Entries.lookup] at hl
  | .cons s c0 rest, p, c, h, hl => by
    rw [committedE_cons, Bool.and_eq_true] at h
    by_cases hs : s = p
    · simp only [Entries.lookup, hs, if_true, Option.some_inj] at hl
      subst hl
      exact h.1
    · simp only [Entries.lookup, hs, if_false] at hl
      exact committedE_lookup rest p c h.2 hl

/-- Processing one committed child entry of the `make_tree` loop: the child
is left untouched, contributes its canonical buffer line, no git write and no
invalidation. -/
theorem mtEntries_cons_committed (p : String) (c : Node) (rest rest' : Entries)
    (buf : String) (ops : List GitOp) (inval : Bool) (k : Nat)
    (hc : headCommitted c = true)
    (hmt : mtEntries rest = some (rest', buf, ops, inval, k)) :
    ∃ k2, mtEntries (.cons p c rest)
      = some (.cons p c rest', canonLine p c ++ buf, ops, inval, k2) := by
  unfold headCommitted at hc
  obtain ⟨cr, cb, cc⟩ := c
  by_cases hleaf : (Node.mk cr cb cc).isLeafBook
  · rw [if_pos hleaf] at hc
    simp only [Node.book] at hc
    cases cb with
    | none => exact absurd hc (by simp)
    | some b =>
      obtain ⟨bp, bn, bd, bdy⟩ := b
      simp only [Book.consistent, Bool.and_eq_true, Bool.not_eq_true'] at hc
      obtain ⟨hdy, hnm⟩ := hc
      subst hdy
      cases bd with
      | none => exact absurd hnm (by simp)
      | some dv =>
        simp only [beq_iff_eq] at hnm
        subst hnm
        refine ⟨k, ?_⟩
        simp [mtEntries, hleaf, hmt, canonLine, Node.book, Node.root,
          Node.children, serializeData]
  · rw [if_neg hleaf] at hc
    obtain ⟨k₁, hmtc⟩ := make_tree_committed (Node.mk cr cb cc) hc
    have hrt : (Node.mk cr cb cc).root
        = some (hashTree (Node.mk cr cb cc).canonBuf) := by
      simp only [Node.committedB, Bool.and_eq_true, beq_iff_eq] at hc
      rw [Node.root, hc.1.2, canonBuf_mk]
    refine ⟨k₁ + k, ?_⟩
    simp [mtEntries, hleaf, hmtc, hmt, hrt, canonLine]

/-- The `make_tree` child loop over a committed entry list in which exactly
the entry at `p` — a record leaf — was overwritten with a dirty value `v`:
the dirty blob is written (one git write), the leaf's book is flushed, every
other entry is untouched, the loop reports invalidation, and the resulting
buffer differs from the committed canonical buffer. -/
theorem mtEntries_update_leaf :
    ∀ (es : Entries) (p : String) (b0 : Book) (v : String),
      es.committedE = true →
      es.lookup p = some (Node.mk none (some b0) .nil) →
      b0.data ≠ some v →
      ∃ buf k,
        mtEntries (es.update p
            (Node.mk none (some (Book.mk b0.path none (some v) true)) .nil))
          = some (es.update p
              (Node.mk none (some (Book.mk b0.path (some (hashBlob v)) (some v) false)) .nil),
              buf, [GitOp.blobW v], true, k)
        ∧ buf ≠ es.canonBufE
  | .nil, p, b0, v, hcom, hl, hv => by simp [Entries.lookup] at hl
  | .cons s c rest, p, b0, v, hcom, hl, hv => by
    rw [committedE_cons, Bool.and_eq_true] at hcom
    obtain ⟨hc, hrest⟩ := hcom
    by_cases hs : s = p
    · subst hs
      simp [Entries.lookup] at hl
      subst hl
      obtain ⟨k, hmt⟩ := mtEntries_committed rest hrest
      have hleaf1 : (Node.mk none (some (Book.mk b0.path none (some v) true))
          (Entries.nil : Entries)).isLeafBook = true := by
        simp [Node.isLeafBook, Node.keyCount, Node.root, Node.book,
          Node.children, Entries.length]
      have hb0 : ∃ d0, b0.data = some d0 ∧ b0.name = some (hashBlob d0) := by
        unfold headCommitted at hc
        simp only [if_pos (by
          simp [Node.isLeafBook, Node.keyCount, Node.root, Node.book,
            Node.children, Entries.length] : (Node.mk none (some b0)
              (Entries.nil : Entries)).isLeafBook = true), Node.book] at hc
        obtain ⟨bp, bn, bd, bdy⟩ := b0
        simp only [Book.consistent, Bool.and_eq_true, Bool.not_eq_true'] at hc
        cases bd with
        | none => exact absurd hc.2 (by simp)
        | some d0 => exact ⟨d0, rfl, by simpa using hc.2⟩
      obtain ⟨d0, hd0, hn0⟩ := hb0
      refine ⟨blobLine (hashBlob v) s ++ rest.canonBufE, k, ?_, ?_⟩
      · simp [mtEntries, hleaf1, Node.book, Node.root, Node.children, hmt,
          serializeData, Entries.update]
      · rw [canonBufE_cons]
        intro heq
        have hline := strAppCancelRight _ _ _ heq
        have hcl : canonLine s (Node.mk none (some b0) .nil)
            = blobLine (hashBlob d0) s := by
          simp [canonLine, Node.isLeafBook, Node.keyCount, Node.root, Node.book,
            Node.children, Entries.length, hd0, serializeData]
        rw [hcl] at hline
        have := hashBlob_inj _ _ (blobLine_inj_name _ _ _ hline)
        rw [hd0, this] at hv
        exact hv rfl
    · obtain ⟨buf_r, k_r, hrec, hneq⟩ :=
        mtEntries_update_leaf rest p b0 v hrest (by
          simpa [Entries.lookup, hs] using hl) hv
      obtain ⟨k2, heq⟩ := mtEntries_cons_committed s c _ _ _ _ _ _ hc hrec
      refine ⟨canonLine s c ++ buf_r, k2, ?_, ?_⟩
      · simpa [Entries.update, hs] using heq
      · rw [canonBufE_cons]
        intro hcontra
        exact hneq (strAppCancelLeft _ _ _ hcontra)

/-- The `make_tree` child loop over a committed entry list in which exactly
the entry at `p` — a subtree — was replaced by a dict whose `make_tree`
outcome is given and returns a name different from the committed subtree's
canonical hash: the subtree's git writes are the only writes, every other
entry is untouched, the loop reports invalidation, and the buffer differs
from the committed canonical buffer. -/
theorem mtEntries_update_tree :
    ∀ (es : Entries) (p : String) (c0 c1 c1' : Node) (nm : String)
      (ops1 : List GitOp) (k1 : Nat),
      es.committedE = true →
      es.lookup p = some c0 →
      c0.isLeafBook = false →
      c1.isLeafBook = false →
      make_tree c1 = some (c1', nm, ops1, k1) →
      some nm ≠ c1.root →
      nm ≠ hashTree c0.canonBuf →
      ∃ buf k,
        mtEntries (es.update p c1) = some (es.update p c1', buf, ops1, true, k)
        ∧ buf ≠ es.canonBufE
  | .nil, p, c0, c1, c1', nm, ops1, k1, hcom, hl, _, _, _, _, _ => by
    simp [Entries.lookup] at hl
  | .cons s c rest, p, c0, c1, c1', nm, ops1, k1, hcom, hl, hc0, hc1, hmt1,
      hchg, hnm => by
    rw [committedE_cons, Bool.and_eq_true] at hcom
    obtain ⟨hc, hrest⟩ := hcom
    by_cases hs : s = p
    · subst hs
      simp [Entries.lookup] at hl
      subst hl
      obtain ⟨k, hmt⟩ := mtEntries_committed rest hrest
      have hchgb : (some nm != c1.root) = true := by
        simpa using hchg
      refine ⟨treeLine nm s ++ rest.canonBufE, k1 + k, ?_, ?_⟩
      · simp [mtEntries, hc1, hmt1, hmt, hchgb, Entries.update]
      · rw [canonBufE_cons]
        intro heq
        have hline := strAppCancelRight _ _ _ heq
        have hcl : canonLine s c = treeLine (hashTree c.canonBuf) s := by
          simp [canonLine, hc0]
        rw [hcl] at hline
        exact hnm (treeLine_inj_name _ _ _ hline)
    · obtain ⟨buf_r, k_r, hrec, hneq⟩ :=
        mtEntries_update_tree rest p c0 c1 c1' nm ops1 k1 hrest (by
          simpa [Entries.lookup, hs] using hl) hc0 hc1 hmt1 hchg hnm
      obtain ⟨k2, heq⟩ := mtEntries_cons_committed s c _ _ _ _ _ _ hc hrec
      refine ⟨canonLine s c ++ buf_r, k2, ?_, ?_⟩
      · simpa [Entries.update, hs] using heq
      · rw [canonBufE_cons]
        intro hcontra
        exact hneq (strAppCancelLeft _ _ _ hcontra)

/-- Incremental flush along one dirty leaf path: on a committed tree in which
exactly one record leaf has been overwritten (via `set`) with a value whose
`set_data` fired, `make_tree` issues exactly one blob write plus one tree
write per spine level, returns a fresh root hash, and resolves every path
that diverges from the written path exactly as the committed tree did. -/
theorem make_tree_setAt_spine :
    ∀ (ps : List String) (n : Node) (path v : String) (d : Node) (b0 : Book),
      n.committedB = true →
      getTree? n ps = some d →
      d.isLeafBook = true →
      d.book = some b0 →
      b0.data ≠ some v →
      ps ≠ [] →
      ∃ cs' nm ts k,
        make_tree (setAt n ps path v)
          = some (Node.mk (some nm) none cs', nm, GitOp.blobW v :: ts, k) ∧
        nm ≠ hashTree n.canonBuf ∧
        (∀ op ∈ ts, ∃ u, op = GitOp.treeW u) ∧
        ts.length = ps.length ∧
        (∀ (pre : List String) (aseg : String) (psR : List String)
            (bseg : String) (qsR : List String),
          ps = pre ++ aseg :: psR → aseg ≠ bseg →
          getTree? (Node.mk (some nm) none cs') (pre ++ bseg :: qsR)
            = getTree? n (pre ++ bseg :: qsR))
  | [], n, path, v, d, b0, _, _, _, _, _, hne => absurd rfl hne
  | [a], .mk r bk cs, path, v, d, b0, hcom, hd, hdleaf, hdbook, hv, _ => by
    obtain ⟨hbk, hr, hcsE⟩ := committedB_parts r bk cs hcom
    subst hbk
    rw [getTree?_cons] at hd
    cases hlook : cs.lookup a with
    | none => rw [hlook] at hd; exact absurd hd (by simp)
    | some c =>
      rw [hlook] at hd
      have hd2 : getTree? c [] = some d := hd
      rw [getTree?_nil, Option.some_inj] at hd2
      subst hd2
      obtain ⟨dr, db, dc⟩ := c
      obtain ⟨hdr, hdc, _⟩ := isLeafBook_shape dr db dc hdleaf
      subst hdr
      subst hdc
      simp only [Node.book] at hdbook
      subst hdbook
      have hset : setData b0 v = Book.mk b0.path none (some v) true := by
        rw [setData, if_pos (fun h => hv h.symm)]
      obtain ⟨buf, k, hmtup, hbufne⟩ := mtEntries_update_leaf cs a b0 v hcsE hlook hv
      refine ⟨cs.update a (Node.mk none
          (some (Book.mk b0.path (some (hashBlob v)) (some v) false)) .nil),
        hashTree buf, [GitOp.treeW buf], k + 1, ?_, ?_, ?_, ?_, ?_⟩
      · simp only [setAt, hlook, Option.getD_some, hset]
        simp [make_tree, hmtup]
      · rw [canonBuf_mk]
        intro h
        exact hbufne (hashTree_inj _ _ h)
      · intro op hop
        simp only [List.mem_singleton] at hop
        exact ⟨buf, hop⟩
      · rfl
      · intro pre aseg psR bseg qsR hdecomp hne
        cases pre with
        | nil =>
          simp only [List.nil_append, List.cons.injEq] at hdecomp
          obtain ⟨ha, _⟩ := hdecomp
          subst ha
          simp only [List.nil_append]
          rw [getTree?_cons, getTree?_cons,
            Entries.lookup_update_ne cs a bseg _ (fun h => hne h.symm)]
        | cons x pre2 =>
          simp only [List.cons_append, List.cons.injEq] at hdecomp
          exact absurd hdecomp.2 (by simp)
  | a :: a2 :: ps2, .mk r bk cs, path, v, d, b0, hcom, hd, hdleaf, hdbook, hv,
      _ => by
    obtain ⟨hbk, hr, hcsE⟩ := committedB_parts r bk cs hcom
    subst hbk
    rw [getTree?_cons] at hd
    cases hlook : cs.lookup a with
    | none => rw [hlook] at hd; exact absurd hd (by simp)
    | some c0 =>
      rw [hlook] at hd
      replace hd : getTree? c0 (a2 :: ps2) = some d := hd
      have hc0head := committedE_lookup cs a c0 hcsE hlook
      have hc0leaf : c0.isLeafBook = false := by
        cases hcl : c0.isLeafBook with
        | false => rfl
        | true =>
          obtain ⟨cr0, cb0, cc0⟩ := c0
          obtain ⟨_, hnil, _⟩ := isLeafBook_shape cr0 cb0 cc0 hcl
          subst hnil
          rw [getTree?_cons] at hd
          simp only [Entries.lookup] at hd
          exact absurd hd (by simp)
      have hc0com : c0.committedB = true := by
        unfold headCommitted at hc0head
        rwa [if_neg (by simp [hc0leaf])] at hc0head
      obtain ⟨cs1', nm1, ts1, k1, hmt1, hnm1, hts1, hlen1, hframe1⟩ :=
        make_tree_setAt_spine (a2 :: ps2) c0 path v d b0 hc0com hd hdleaf
          hdbook hv (by simp)
      obtain ⟨cr0, cb0, cc0⟩ := c0
      obtain ⟨hcb0, hcr0, _⟩ := committedB_parts cr0 cb0 cc0 hc0com
      subst hcb0
      have hc1leaf : (setAt (Node.mk cr0 none cc0) (a2 :: ps2) path v).isLeafBook
          = false := by
        simp [setAt, Node.isLeafBook, Node.book]
      have hchg : some nm1 ≠ (setAt (Node.mk cr0 none cc0) (a2 :: ps2) path v).root := by
        simp only [setAt, Node.root, hcr0]
        intro h
        rw [Option.some_inj] at h
        rw [canonBuf_mk cr0 none cc0] at hnm1
        exact hnm1 h
      obtain ⟨buf, k2, hmtup, hbufne⟩ := mtEntries_update_tree cs a
        (Node.mk cr0 none cc0) (setAt (Node.mk cr0 none cc0) (a2 :: ps2) path v)
        (Node.mk (some nm1) none cs1') nm1 (GitOp.blobW v :: ts1) k1
        hcsE hlook hc0leaf hc1leaf hmt1 hchg (by rwa [canonBuf_mk] at hnm1)
      refine ⟨cs.update a (Node.mk (some nm1) none cs1'), hashTree buf,
        ts1 ++ [GitOp.treeW buf], k2 + 1, ?_, ?_, ?_, ?_, ?_⟩
      · simp only [setAt, hlook, Option.getD_some] at hmtup ⊢
        simp [make_tree, hmtup]
      · rw [canonBuf_mk]
        intro h
        exact hbufne (hashTree_inj _ _ h)
      · intro op hop
        rw [List.mem_append] at hop
        cases hop with
        | inl h => exact hts1 op h
        | inr h =>
          simp only [List.mem_singleton] at h
          exact ⟨buf, h⟩
      · simp only [List.length_append, List.length_singleton, hlen1,
          List.length_cons, List.length_nil]
      · intro pre aseg psR bseg qsR hdecomp hne
        cases pre with
        | nil =>
          simp only [List.nil_append, List.cons.injEq] at hdecomp
          obtain ⟨ha, _⟩ := hdecomp
          subst ha
          simp only [List.nil_append]
          rw [getTree?_cons, getTree?_cons,
            Entries.lookup_update_ne cs a bseg _ (fun h => hne h.symm)]
        | cons x pre2 =>
          simp only [List.cons_append, List.cons.injEq] at hdecomp
          obtain ⟨hx, hrest2⟩ := hdecomp
          subst hx
          rw [List.cons_append, getTree?_cons, getTree?_cons,
            Entries.lookup_update_self, hlook]
          exact hframe1 pre2 aseg psR bseg qsR hrest2 hne

/-! ## Preservation of the container/value dichotomy -/

/-- No proper prefix of the path currently resolves to a dict holding a
`'__book__'` record (the terminal dict itself may hold one). -/
def noBookPrefix : Node → List String → Bool
  | _, [] => true
  | .mk _ bk cs, p :: ps =>
    bk.isNone &&
      (match cs.lookup p with
       | some c => noBookPrefix c ps
       | none => true)

theorem noBookPrefix_empty : ∀ (ps : List String), noBookPrefix Node.empty ps = true
  | [] => rfl
  | p :: ps => by simp [noBookPrefix, Node.empty, Entries.lookup]

theorem wfE_lookup :
    ∀ (es : Entries) (p : String) (c : Node),
      es.wfE = true → es.lookup p = some c → c.wfB = true
  | .nil, p, c, _, hl => by simp [Entries.lookup] at hl
  | .cons s c0 rest, p, c, h, hl => by
    simp only [Entries.wfE, Bool.and_eq_true] at h
    by_cases hs : s = p
    · simp only [Entries.lookup, hs, if_true] at hl
      rw [Option.some_inj] at hl
      subst hl
      exact h.1
    · simp only [Entries.lookup, hs, if_false] at hl
      exact wfE_lookup rest p c h.2 hl

theorem wfE_update :
    ∀ (es : Entries) (p : String) (x : Node),
      es.wfE = true → x.wfB = true → (es.update p x).wfE = true
  | .nil, p, x, _, hx => by simp [Entries.update, Entries.wfE, hx]
  | .cons s c rest, p, x, h, hx => by
    simp only [Entries.wfE, Bool.and_eq_true] at h
    by_cases hs : s = p
    · simp [Entries.update, hs, Entries.wfE, hx, h.2]
    · simp [Entries.update, hs, Entries.wfE, h.1,
        wfE_update rest p x h.2 hx]

theorem wfE_remove :
    ∀ (es : Entries) (p : String), es.wfE = true → (es.remove p).wfE = true
  | .nil, p, _ => by simp [Entries.remove, Entries.wfE]
  | .cons s c rest, p, h => by
    simp only [Entries.wfE, Bool.and_eq_true] at h
    by_cases hs : s = p
    · simp [Entries.remove, hs, h.2]
    · simp [Entries.remove, hs, Entries.wfE, h.1, wfE_remove rest p h.2]

/-- `set` preserves the dichotomy provided no proper prefix of the written
path holds a record. -/
theorem setAt_wf :
    ∀ (ps : List String) (n : Node) (path v : String),
      n.wfB = true → noBookPrefix n ps = true →
      (setAt n ps path v).wfB = true
  | [], .mk r bk cs, path, v, hwf, _ => by
    cases bk with
    | some b =>
      simp only [Node.wfB, Bool.and_eq_true] at hwf
      simp [setAt, Node.wfB, hwf.1, hwf.2]
    | none => simp [setAt, Node.wfB, Entries.wfE, Entries.length]
  | p :: ps, .mk r bk cs, path, v, hwf, hnb => by
    simp only [noBookPrefix, Bool.and_eq_true, Option.isNone_iff_eq_none] at hnb
    obtain ⟨hbk, hnb2⟩ := hnb
    subst hbk
    simp only [Node.wfB, Bool.and_eq_true] at hwf
    have hchild : (setAt ((cs.lookup p).getD Node.empty) ps path v).wfB = true := by
      cases hl : cs.lookup p with
      | some c =>
        rw [hl] at hnb2
        exact setAt_wf ps c path v (wfE_lookup cs p c hwf.2 hl) hnb2
      | none =>
        exact setAt_wf ps Node.empty path v (by simp [Node.empty, Node.wfB,
          Entries.wfE]) (noBookPrefix_empty ps)
    simp only [setAt, Node.wfB, Bool.and_eq_true]
    exact ⟨trivial, wfE_update cs p _ hwf.2 hchild⟩

/-- `put` preserves the dichotomy provided no proper prefix of the derived
path holds a record. -/
theorem putAt_wf :
    ∀ (ps : List String) (n : Node) (b : Book),
      n.wfB = true → noBookPrefix n ps = true →
      (putAt n ps b).wfB = true
  | [], n, b, _, _ => by simp [putAt, Node.wfB, Entries.wfE, Entries.length]
  | p :: ps, .mk r bk cs, b, hwf, hnb => by
    simp only [noBookPrefix, Bool.and_eq_true, Option.isNone_iff_eq_none] at hnb
    obtain ⟨hbk, hnb2⟩ := hnb
    subst hbk
    simp only [Node.wfB, Bool.and_eq_true] at hwf
    have hchild : (putAt ((cs.lookup p).getD Node.empty) ps b).wfB = true := by
      cases hl : cs.lookup p with
      | some c =>
        rw [hl] at hnb2
        exact putAt_wf ps c b (wfE_lookup cs p c hwf.2 hl) hnb2
      | none =>
        exact putAt_wf ps Node.empty b (by simp [Node.empty, Node.wfB,
          Entries.wfE]) (noBookPrefix_empty ps)
    simp only [putAt, Node.wfB, Bool.and_eq_true]
    exact ⟨trivial, wfE_update cs p _ hwf.2 hchild⟩

theorem stripChildRoots_wf :
    ∀ (es : Entries), es.wfE = true → (stripChildRoots es).wfE = true
  | .nil, _ => by simp [stripChildRoots, Entries.wfE]
  | .cons s (.mk cr cb cc) rest, h => by
    simp only [Entries.wfE, Bool.and_eq_true] at h
    obtain ⟨hc, hrest⟩ := h
    simp only [stripChildRoots, Entries.wfE, Bool.and_eq_true]
    refine ⟨?_, stripChildRoots_wf rest hrest⟩
    simp only [Node.wfB, Bool.and_eq_true] at hc ⊢
    cases cb with
    | none => simpa using hc
    | some b =>
      simp only [Bool.and_eq_true] at hc ⊢
      exact ⟨⟨by simp, hc.1.2⟩, hc.2⟩

theorem stripRoots_wf (n n' : Node) (hwf : n.wfB = true)
    (h : stripRoots n = some n') : n'.wfB = true := by
  obtain ⟨r, bk, cs⟩ := n
  simp only [stripRoots] at h
  cases bk with
  | some b => simp at h
  | none =>
    have h2 : Node.mk none none (stripChildRoots cs) = n' := by
      simpa using h
    subst h2
    simp only [Node.wfB, Bool.and_eq_true] at hwf ⊢
    exact ⟨trivial, stripChildRoots_wf cs hwf.2⟩

/-- `prune_tree` (hence `__delitem__`) preserves the dichotomy
unconditionally. -/
theorem prune_wf :
    ∀ (ps : List String) (n : Node) (n' : Node) (i : Int),
      n.wfB = true → prune? n ps = some (n', i) → n'.wfB = true
  | [], n, n', i, _, h => by simp [prune?] at h
  | [p], .mk r bk cs, n', i, hwf, h => by
    cases hl : cs.lookup p with
    | none => simp [prune?, hl] at h
    | some c =>
      simp only [prune?, hl, Option.some_inj, Prod.mk.injEq] at h
      obtain ⟨hn, _⟩ := h
      subst hn
      simp only [Node.wfB, Bool.and_eq_true] at hwf ⊢
      cases bk with
      | none => exact ⟨rfl, wfE_remove cs p hwf.2⟩
      | some b =>
        simp only [Bool.and_eq_true, beq_iff_eq] at hwf
        have hnil := Entries.length_zero cs hwf.1.2
        subst hnil
        simp [Entries.lookup] at hl
  | p :: p2 :: ps2, .mk r bk cs, n', i, hwf, h => by
    cases hl : cs.lookup p with
    | none => simp [prune?, hl] at h
    | some c =>
      cases hpr : prune? c (p2 :: ps2) with
      | none => simp [prune?, hl, hpr] at h
      | some res =>
        obtain ⟨c', left⟩ := res
        simp only [prune?, hl, hpr] at h
        simp only [Node.wfB, Bool.and_eq_true] at hwf
        have hc' : c'.wfB = true :=
          prune_wf (p2 :: ps2) c c' left (wfE_lookup cs p c hwf.2 hl) hpr
        cases hcond : pruneStop left c' with
        | true =>
          rw [hcond] at h
          cases hst : stripRoots (Node.mk r bk (cs.update p c')) with
          | none => rw [hst] at h; simp at h
          | some n2 =>
            rw [hst] at h
            simp only [if_true, Option.some_inj, Prod.mk.injEq] at h
            obtain ⟨hn, _⟩ := h
            subst hn
            refine stripRoots_wf _ _ ?_ hst
            simp only [Node.wfB, Bool.and_eq_true]
            refine ⟨?_, wfE_update cs p c' hwf.2 hc'⟩
            cases bk with
            | none => rfl
            | some b =>
              simp only [Bool.and_eq_true, beq_iff_eq] at hwf
              have hnil := Entries.length_zero cs hwf.1.2
              subst hnil
              simp [Entries.lookup] at hl
        | false =>
          rw [hcond] at h
          simp only [Bool.false_eq_true, if_false, Option.some_inj,
            Prod.mk.injEq] at h
          obtain ⟨hn, _⟩ := h
          subst hn
          simp only [Node.wfB, Bool.and_eq_true]
          refine ⟨?_, wfE_remove _ p (wfE_update cs p c' hwf.2 hc')⟩
          cases bk with
          | none => rfl
          | some b =>
            simp only [Bool.and_eq_true, beq_iff_eq] at hwf
            have hnil := Entries.length_zero cs hwf.1.2
            subst hnil
            simp [Entries.lookup] at hl

mutual
/-- `make_tree` preserves the dichotomy. -/
theorem make_tree_wf : ∀ (n n' : Node) (nm : String) (ops : List GitOp) (k : Nat),
    n.wfB = true → make_tree n = some (n', nm, ops, k) → n'.wfB = true
  | .mk r bk cs, n', nm, ops, k, hwf, h => by
    cases bk with
    | some b => simp [make_tree] at h
    | none =>
      cases hm : mtEntries cs with
      | none => simp [make_tree, hm] at h
      | some res =>
        obtain ⟨cs', buf, ops2, inval, k2⟩ := res
        simp only [make_tree, hm, Option.isSome_none, Bool.false_eq_true,
          if_false] at h
        simp only [Node.wfB, Bool.and_eq_true] at hwf
        have hcs' : cs'.wfE = true := mtEntries_wf cs cs' buf ops2 inval k2 hwf.2 hm
        cases hio : (inval || r.isNone) with
        | true =>
          rw [hio] at h
          simp only [if_true, Option.some_inj, Prod.mk.injEq] at h
          obtain ⟨hn, _⟩ := h
          subst hn
          simp [Node.wfB, hcs']
        | false =>
          rw [hio] at h
          simp only [Bool.false_eq_true, if_false, Option.some_inj,
            Prod.mk.injEq] at h
          obtain ⟨hn, _⟩ := h
          subst hn
          simp [Node.wfB, hcs']

theorem mtEntries_wf : ∀ (es es' : Entries) (buf : String) (ops : List GitOp)
    (inval : Bool) (k : Nat),
    es.wfE = true → mtEntries es = some (es', buf, ops, inval, k) → es'.wfE = true
  | .nil, es', buf, ops, inval, k, _, h => by
    simp only [mtEntries, Option.some_inj, Prod.mk.injEq] at h
    obtain ⟨hn, _⟩ := h
    subst hn
    simp [Entries.wfE]
  | .cons p c rest, es', buf, ops, inval, k, hwf, h => by
    simp only [Entries.wfE, Bool.and_eq_true] at hwf
    by_cases hleaf : c.isLeafBook
    · cases hb : c.book with
      | none => simp [mtEntries, hleaf, hb] at h
      | some b =>
        cases hm : mtEntries rest with
        | none => simp [mtEntries, hleaf, hb, hm] at h
        | some res =>
          obtain ⟨rest', buf2, ops2, inval2, k2⟩ := res
          simp only [mtEntries, hleaf, if_true, hb, hm, Option.some_inj,
            Prod.mk.injEq] at h
          obtain ⟨hn, _⟩ := h
          subst hn
          simp only [Entries.wfE, Bool.and_eq_true]
          refine ⟨?_, mtEntries_wf rest rest' buf2 ops2 inval2 k2 hwf.2 hm⟩
          obtain ⟨cr, cb, cc⟩ := c
          simp only [Node.book] at hb
          subst hb
          have hcwf := hwf.1
          simp only [Node.wfB, Bool.and_eq_true] at hcwf ⊢
          exact ⟨hcwf.1, hcwf.2⟩
    · cases hmc : make_tree c with
      | none => simp [mtEntries, hleaf, hmc] at h
      | some resc =>
        obtain ⟨c', nm2, ops1, k1⟩ := resc
        cases hm : mtEntries rest with
        | none => simp [mtEntries, hleaf, hmc, hm] at h
        | some res =>
          obtain ⟨rest', buf2, ops2, inval2, k2⟩ := res
          simp only [mtEntries, hleaf, Bool.false_eq_true, if_false, hmc, hm,
            Option.some_inj, Prod.mk.injEq] at h
          have hn : Entries.cons p c' rest' = es' := h.1
          subst hn
          simp only [Entries.wfE, Bool.and_eq_true]
          exact ⟨make_tree_wf c c' nm2 ops1 k1 hwf.1 hmc,
            mtEntries_wf rest rest' buf2 ops2 inval2 k2 hwf.2 hm⟩
end

/-! ## The claims -/

def c1leaf : Node :=
  Node.mk none (some (Book.mk "sub/x" (some (hashBlob "hello")) (some "hello") false)) .nil

def c1sub : Node :=
  Node.mk (some (hashTree (blobLine (hashBlob "hello") "x"))) none (.cons "x" c1leaf .nil)

def c1tree : Node :=
  Node.mk (some (hashTree (treeLine (hashTree (blobLine (hashBlob "hello") "x")) "sub")))
    none (.cons "sub" c1sub .nil)

/-- C1 (counterexample): on a clean committed dict with a cached root and one
child subtree, make_tree does return the cached hash with no git write — but
it performs 2 make_tree invocations, i.e. it DOES recurse into the child
dict, contradicting the claim's "no recursion into the node's children". -/
theorem C1_counterexample :
    c1tree.cleanB = true ∧
    c1tree.committedB = true ∧
    c1tree.root = some (hashTree (treeLine (hashTree (blobLine (hashBlob "hello") "x")) "sub")) ∧
    make_tree c1tree = some (c1tree,
      hashTree (treeLine (hashTree (blobLine (hashBlob "hello") "x")) "sub"), [], 2) ∧
    ¬ (2 = 1) :=
  ⟨rfl, rfl, rfl, rfl, by simp⟩

/-- C1 (amended): for every dict whose cached root is present and whose
subtree is clean (not invalidated), make_tree returns the cached hash,
issues no object-store I/O and leaves the dict untouched; the recursion
does, however, walk into the children (see the counterexample), it merely
performs no I/O there. -/
theorem C1_theorem (n : Node) (r : String) (hclean : n.cleanB = true)
    (hr : n.root = some r) : ∃ k, make_tree n = some (n, r, [], k) := by
  obtain ⟨k, h⟩ := make_tree_clean n hclean
  rw [hr] at h
  exact ⟨k, h⟩

theorem C1_witness :
    ∃ k, make_tree c1tree = some (c1tree,
      hashTree (treeLine (hashTree (blobLine (hashBlob "hello") "x")) "sub"), [], k) :=
  C1_theorem c1tree _ rfl rfl

/-- C2: starting from a committed store, a set of one existing record leaf
to a value whose set_data fires, followed by a commit, issues exactly one
blob write, one tree write per segment of the written path and one commit
write — and every path that diverges from the written path resolves to the
very same dict as before, cached tree hash included: untouched sibling
subtrees keep their hashes and cost no object-store writes. -/
theorem C2_theorem (s : Shelve) (path v msg : String) (d : Node) (b0 : Book)
    (pre : List String) (aseg : String) (psR : List String) (bseg : String)
    (qsR : List String)
    (hcom : s.objects.committedB = true)
    (hsplit : splitPath path = pre ++ aseg :: psR)
    (hd : getTree? s.objects (splitPath path) = some d)
    (hleaf : d.isLeafBook = true)
    (hbook : d.book = some b0)
    (hv : b0.data ≠ some v)
    (hab : aseg ≠ bseg) :
    ∃ s2 cname tname ts,
      (s.setItem path v).commit? msg = some (s2, some cname,
        GitOp.blobW v :: (ts ++ [GitOp.commitW tname
          (if s.head.isSome && s.keepHistory then s.head else none) msg])) ∧
      (∀ op ∈ ts, ∃ u, op = GitOp.treeW u) ∧
      ts.length = (splitPath path).length ∧
      getTree? s2.objects (pre ++ bseg :: qsR)
        = getTree? s.objects (pre ++ bseg :: qsR) := by
  obtain ⟨cs', nm, ts, k, hmt, hnm, hts, hlen, hframe⟩ :=
    make_tree_setAt_spine (splitPath path) s.objects path v d b0 hcom hd hleaf
      hbook hv (by rw [hsplit]; simp)
  refine ⟨Shelve.mk (Node.mk (some nm) none cs')
      (some (hashCommit nm (if s.head.isSome && s.keepHistory then s.head else none) msg))
      false s.keepHistory,
    hashCommit nm (if s.head.isSome && s.keepHistory then s.head else none) msg,
    nm, ts, ?_, hts, hlen, ?_⟩
  · simp only [Shelve.setItem, Shelve.commit?, hmt]
    simp
  · exact hframe pre aseg psR bseg qsR hsplit hab

def c2leaf1 : Node :=
  Node.mk none (some (Book.mk "foo/bar/baz1.c" (some (hashBlob "A")) (some "A") false)) .nil

def c2leaf2 : Node :=
  Node.mk none (some (Book.mk "foo/bar/baz2.c" (some (hashBlob "B")) (some "B") false)) .nil

def c2barBuf : String :=
  blobLine (hashBlob "A") "baz1.c" ++ blobLine (hashBlob "B") "baz2.c"

def c2bar : Node :=
  Node.mk (some (hashTree c2barBuf)) none (.cons "baz1.c" c2leaf1 (.cons "baz2.c" c2leaf2 .nil))

def c2foo : Node :=
  Node.mk (some (hashTree (treeLine (hashTree c2barBuf) "bar"))) none (.cons "bar" c2bar .nil)

def c2tree : Node :=
  Node.mk (some (hashTree (treeLine (hashTree (treeLine (hashTree c2barBuf) "bar")) "foo")))
    none (.cons "foo" c2foo .nil)

def c2shelf : Shelve := Shelve.mk c2tree (some "H1") false true

theorem C2_witness :
    ∃ s2 cname tname ts,
      (c2shelf.setItem "foo/bar/baz1.c" "A2").commit? "c2" = some (s2, some cname,
        GitOp.blobW "A2" :: (ts ++ [GitOp.commitW tname
          (if c2shelf.head.isSome && c2shelf.keepHistory then c2shelf.head else none) "c2"])) ∧
      (∀ op ∈ ts, ∃ u, op = GitOp.treeW u) ∧
      ts.length = (splitPath "foo/bar/baz1.c").length ∧
      getTree? s2.objects (["foo", "bar"] ++ "baz2.c" :: [])
        = getTree? c2shelf.objects (["foo", "bar"] ++ "baz2.c" :: []) :=
  C2_theorem c2shelf "foo/bar/baz1.c" "A2" "c2"
    (Node.mk none (some (Book.mk "foo/bar/baz1.c" (some (hashBlob "A")) (some "A") false)) .nil)
    (Book.mk "foo/bar/baz1.c" (some (hashBlob "A")) (some "A") false)
    ["foo", "bar"] "baz1.c" [] "baz2.c" []
    rfl rfl rfl rfl rfl (by simp) (by simp)

def c3shelf : Shelve :=
  Shelve.mk (Node.mk none none (.cons "k"
      (Node.mk none (some (Book.mk "k" (some (hashBlob "v")) none false)) .nil) .nil))
    none false true

/-- C3 (counterexample): a clean record at "k" whose value is unmaterialized
and whose stored blob content is "v" (a get would load "v").  Setting the
very same value "v" marks the record dirty — set_data compares against the
unloaded marker and forces no load — and `__setitem__` sets the Store's
dirty flag unconditionally.  Both contradict the claim that an equal-value
set changes neither flag (after forcing a load to compare). -/
theorem C3_counterexample :
    c3shelf.getItem? "k" = some ("v", true) ∧
    c3shelf.dirty = false ∧
    ((getTree? ((c3shelf.setItem "k" "v").objects) ["k"]).bind Node.book).map Book.dirty
      = some true ∧
    (c3shelf.setItem "k" "v").dirty = true :=
  ⟨rfl, rfl, rfl, rfl⟩

/-- C3 (amended): set(path, v) on a path holding a Record compares v only
against the in-memory value, never forcing a load: when the value is
materialized and equal the whole tree (hence the Record and its flag) is
untouched; when the value is unmaterialized the Record is marked dirty even
if the stored content equals v; and in every case `__setitem__` sets the
Store's dirty flag to true. -/
theorem C3_theorem (s : Shelve) (path v : String) (d : Node) (b : Book)
    (hd : getTree? s.objects (splitPath path) = some d)
    (hb : d.book = some b) :
    (b.data = some v → s.setItem path v = Shelve.mk s.objects s.head true s.keepHistory) ∧
    (b.data = none → (getTree? ((s.setItem path v).objects) (splitPath path)).bind Node.book
      = some (Book.mk b.path none (some v) true)) ∧
    (s.setItem path v).dirty = true := by
  refine ⟨?_, ?_, rfl⟩
  · intro hdata
    have hnoop : setData b v = b := by
      simp [setData, hdata]
    simp only [Shelve.setItem, setAt_noop (splitPath path) s.objects path v d b hd hb hnoop]
  · intro hdata
    have hpoint := getTree?_setAt_point (splitPath path) s.objects path v d hd
    simp only [hb] at hpoint
    simp only [Shelve.setItem]
    rw [hpoint]
    have hset : setData b v = Book.mk b.path none (some v) true := by
      simp [setData, hdata]
    simp [Node.book, hset]

def c3wshelf : Shelve :=
  Shelve.mk (Node.mk none none (.cons "k"
      (Node.mk none (some (Book.mk "k" (some (hashBlob "v")) (some "v") false)) .nil) .nil))
    none false true

theorem C3_witness :
    c3wshelf.setItem "k" "v" = Shelve.mk c3wshelf.objects c3wshelf.head true c3wshelf.keepHistory ∧
    (c3wshelf.setItem "k" "v").dirty = true := by
  have h := C3_theorem c3wshelf "k" "v"
    (Node.mk none (some (Book.mk "k" (some (hashBlob "v")) (some "v") false)) .nil)
    (Book.mk "k" (some (hashBlob "v")) (some "v") false) rfl rfl
  exact ⟨h.1 rfl, h.2.2⟩

/-- C4: read-your-writes without I/O — for every shelf, path and value, a
get issued right after the set of that path returns the value with no
object-store read (set itself issues no git command at all: the embedding
of `__setitem__` produces no GitOp). -/
theorem C4_theorem (s : Shelve) (path v : String) :
    (s.setItem path v).getItem? path = some (v, false) := by
  simp only [Shelve.setItem, Shelve.getItem?]
  exact readAt?_setAt (splitPath path) s.objects path v

/-- C5: get fails exactly when the path does not resolve or resolves to a
dict holding no record; otherwise it returns the record's value, reading the
blob (lazy load) exactly when the value is unmaterialized.  The hypothesis —
every record reachable at the path has a value or a hash — rules out the
degenerate record `{name: None, data: None}` on which the source dies with
an AssertionError instead of a KeyError (such a record is unreachable
through the write API). -/
theorem C5_theorem (s : Shelve) (path : String)
    (hok : ∀ d b, getTree? s.objects (splitPath path) = some d → d.book = some b →
      (b.data.isSome = true ∨ b.name.isSome = true)) :
    (s.getItem? path = none ↔
      (getTree? s.objects (splitPath path) = none ∨
       ∃ d, getTree? s.objects (splitPath path) = some d ∧ d.book = none)) ∧
    (∀ v io, s.getItem? path = some (v, io) →
      ∃ d b, getTree? s.objects (splitPath path) = some d ∧ d.book = some b ∧
        ((b.data = some v ∧ io = false) ∨
         (b.data = none ∧ ∃ h, b.name = some h ∧ v = getBlob h ∧ io = true))) := by
  cases hd : getTree? s.objects (splitPath path) with
  | none =>
    refine ⟨⟨fun _ => Or.inl rfl, fun _ => by
      simp [Shelve.getItem?, readAt?, hd]⟩, ?_⟩
    intro v io h
    simp [Shelve.getItem?, readAt?, hd] at h
  | some d =>
    cases hb : d.book with
    | none =>
      refine ⟨⟨fun _ => Or.inr ⟨d, rfl, hb⟩, fun _ => by
        simp [Shelve.getItem?, readAt?, hd, hb]⟩, ?_⟩
      intro v io h
      simp [Shelve.getItem?, readAt?, hd, hb] at h
    | some b =>
      constructor
      · constructor
        · intro h
          simp only [Shelve.getItem?, readAt?, hd, hb] at h
          cases hdata : b.data with
          | some dv => simp only [getData?, hdata] at h; exact absurd h (by simp)
          | none =>
            cases hname : b.name with
            | some nm =>
              simp only [getData?, hdata, hname] at h
              exact absurd h (by simp)
            | none =>
              have := hok d b hd hb
              rw [hdata, hname] at this
              simp at this
        · intro h
          cases h with
          | inl h => exact absurd h (by simp)
          | inr h =>
            obtain ⟨d2, hd2, hb2⟩ := h
            rw [Option.some_inj] at hd2
            subst hd2
            rw [hb] at hb2
            exact absurd hb2 (by simp)
      · intro v io h
        simp only [Shelve.getItem?, readAt?, hd, hb] at h
        cases hdata : b.data with
        | some dv =>
          simp only [getData?, hdata, Option.some_inj, Prod.mk.injEq] at h
          exact ⟨d, b, rfl, hb, Or.inl ⟨by rw [hdata, h.1], h.2.symm⟩⟩
        | none =>
          cases hname : b.name with
          | some nm =>
            simp only [getData?, hdata, hname, Option.some_inj, Prod.mk.injEq] at h
            exact ⟨d, b, rfl, hb, Or.inr ⟨hdata, nm, hname, h.1.symm, h.2.symm⟩⟩
          | none =>
            simp only [getData?, hdata, hname] at h
            exact absurd h (by simp)

theorem C5_witness : (Shelve.fresh true).getItem? "zz" = none := by
  have h := C5_theorem (Shelve.fresh true) "zz" (by
    intro d b hd _
    exact absurd hd (by rw [show getTree? (Shelve.fresh true).objects
      (splitPath "zz") = none from rfl]; simp))
  exact h.1.mpr (Or.inl rfl)

def c6buf : String := blobLine (hashBlob "va") "a" ++ blobLine (hashBlob "vb") "b"

def c6hash : String := hashTree c6buf

def c6tree : Node :=
  Node.mk (some c6hash) none
    (.cons "a" (Node.mk none (some (Book.mk "a" (some (hashBlob "va")) (some "va") false)) .nil)
      (.cons "b" (Node.mk none (some (Book.mk "b" (some (hashBlob "vb")) (some "vb") false)) .nil)
        .nil))

def c6del : Node :=
  Node.mk (some c6hash) none
    (.cons "b" (Node.mk none (some (Book.mk "b" (some (hashBlob "vb")) (some "vb") false)) .nil)
      .nil)

/-- C6 (code bug): commit a shelf holding the records "a" and "b", then
delete "a".  The in-memory record is gone, but `prune_tree`'s single-segment
base case never strips the top-level dict's cached `'__root__'`: the root —
a remaining ancestor of the deletion point — keeps its cached hash, directly
contradicting the claim (and the spec's "invalidating … all the way to the
root").  Consequence: the very next commit issues no blob or tree write and
re-commits the OLD tree hash, which still contains "a" — the deletion is
silently lost in the object store. -/
theorem C6_theorem :
    (((Shelve.fresh true).setItem "a" "va").setItem "b" "vb").commit? "c1"
      = some (Shelve.mk c6tree (some (hashCommit c6hash none "c1")) false true,
          some (hashCommit c6hash none "c1"),
          [GitOp.blobW "va", GitOp.blobW "vb", GitOp.treeW c6buf,
           GitOp.commitW c6hash none "c1"]) ∧
    (Shelve.mk c6tree (some (hashCommit c6hash none "c1")) false true).delItem? "a"
      = some (Shelve.mk c6del (some (hashCommit c6hash none "c1")) true true) ∧
    readAt? c6del ["a"] = none ∧
    c6del.root = some c6hash ∧
    (Shelve.mk c6del (some (hashCommit c6hash none "c1")) true true).commit? "c2"
      = some (Shelve.mk c6del
          (some (hashCommit c6hash (some (hashCommit c6hash none "c1")) "c2")) false true,
          some (hashCommit c6hash (some (hashCommit c6hash none "c1")) "c2"),
          [GitOp.commitW c6hash (some (hashCommit c6hash none "c1")) "c2"]) :=
  ⟨rfl, rfl, rfl, rfl, rfl⟩

/-- C7: put(v) returns the deterministic blob hash of v as identity, stores
a clean materialized record at the two-level path derived from the identity
(first two characters as directory, remainder as leaf), a get by that
identity returns v without any blob read, and a second put of the same
content returns the same identity and leaves the shelf (hence the record
cache) exactly as it was — no duplicate record. -/
theorem C7_theorem (s : Shelve) (v : String)
    (hsplit : splitPath ((hashBlob v).take 2 ++ "/" ++ (hashBlob v).drop 2)
      = [(hashBlob v).take 2, (hashBlob v).drop 2]) :
    (s.put v).2.1 = hashBlob v ∧
    (s.put v).1.getKey? (hashBlob v) = some (v, false) ∧
    getTree? (s.put v).1.objects [(hashBlob v).take 2, (hashBlob v).drop 2]
      = some (Node.mk none (some (Book.mk
          ((hashBlob v).take 2 ++ "/" ++ (hashBlob v).drop 2)
          (some (hashBlob v)) (some v) false)) .nil) ∧
    ((s.put v).1.put v).1 = (s.put v).1 ∧
    ((s.put v).1.put v).2.1 = (s.put v).2.1 := by
  refine ⟨rfl, ?_, ?_, ?_, rfl⟩
  · simp only [Shelve.put, Shelve.getKey?, serializeData, Option.getD_some]
    rw [readAt?_putAt]
    rfl
  · simp only [Shelve.put, serializeData, Option.getD_some]
    rw [← hsplit, getTree?_putAt]
  · simp only [Shelve.put, serializeData, Option.getD_some]
    rw [putAt_putAt]

theorem C7_witness :
    ((Shelve.fresh false).put "sample").2.1 = hashBlob "sample" ∧
    ((Shelve.fresh false).put "sample").1.getKey? (hashBlob "sample") = some ("sample", false) ∧
    getTree? ((Shelve.fresh false).put "sample").1.objects
        [(hashBlob "sample").take 2, (hashBlob "sample").drop 2]
      = some (Node.mk none (some (Book.mk
          ((hashBlob "sample").take 2 ++ "/" ++ (hashBlob "sample").drop 2)
          (some (hashBlob "sample")) (some "sample") false)) .nil) ∧
    (((Shelve.fresh false).put "sample").1.put "sample").1 = ((Shelve.fresh false).put "sample").1 ∧
    (((Shelve.fresh false).put "sample").1.put "sample").2.1
      = ((Shelve.fresh false).put "sample").2.1 :=
  C7_theorem (Shelve.fresh false) "sample" rfl

/-- C8 (counterexample): from an empty shelf, set "a" and then set "a/b".
The dict at "a" now holds both its `'__book__'` record and the child subtree
"b" — a reachable node that is simultaneously a value holder and a
container, violating the claimed invariant. -/
theorem C8_counterexample :
    getTree? (((Shelve.fresh true).setItem "a" "v").setItem "a/b" "w").objects ["a"]
      = some (Node.mk none (some (Book.mk "a" none (some "v") true))
          (.cons "b" (Node.mk none (some (Book.mk "a/b" none (some "w") true)) .nil) .nil)) ∧
    ((getTree? (((Shelve.fresh true).setItem "a" "v").setItem "a/b" "w").objects ["a"]).map
      (fun d => (d.book.isSome, d.children.length))) = some (true, 1) :=
  ⟨rfl, rfl⟩

/-- C8 (amended): on a well-formed tree (no dict holds both a record and
anything else), delete and commit preserve the invariant unconditionally,
and set and put preserve it provided no proper prefix of the written path
currently holds a record — a set or put below an existing record creates a
node holding both (see the counterexample). -/
theorem C8_theorem (n : Node) (hwf : n.wfB = true) :
    (∀ ps path v, noBookPrefix n ps = true → (setAt n ps path v).wfB = true) ∧
    (∀ ps b, noBookPrefix n ps = true → (putAt n ps b).wfB = true) ∧
    (∀ ps n' i, prune? n ps = some (n', i) → n'.wfB = true) ∧
    (∀ n' nm ops k, make_tree n = some (n', nm, ops, k) → n'.wfB = true) :=
  ⟨fun ps path v h => setAt_wf ps n path v hwf h,
   fun ps b h => putAt_wf ps n b hwf h,
   fun ps n' i h => prune_wf ps n n' i hwf h,
   fun n' nm ops k h => make_tree_wf n n' nm ops k hwf h⟩

theorem C8_witness : (setAt Node.empty ["a", "b"] "a/b" "v").wfB = true :=
  (C8_theorem Node.empty rfl).1 ["a", "b"] "a/b" "v" rfl

/-- C9 (counterexample): membership on an absent path does not return false:
`get_tree` is not guarded in `__contains__`, so the KeyError propagates (the
result is the exception, not `some false`). -/
theorem C9_counterexample :
    (Shelve.fresh true).containsItem? "x" = none ∧ (none : Option Bool) ≠ some false :=
  ⟨rfl, by simp⟩

/-- C9 (amended): contains returns true iff the path resolves to a dict
whose single key is the `'__book__'` record; it returns false (rather than
failing) for resolvable container paths; but for absent paths or missing
intermediate segments it propagates KeyError instead of returning false. -/
theorem C9_theorem (s : Shelve) (path : String) :
    (s.containsItem? path = some true ↔
      ∃ d, getTree? s.objects (splitPath path) = some d ∧ d.keyCount = 1 ∧
        d.book.isSome = true) ∧
    (∀ d, getTree? s.objects (splitPath path) = some d → d.book = none →
      s.containsItem? path = some false) ∧
    (getTree? s.objects (splitPath path) = none → s.containsItem? path = none) := by
  refine ⟨?_, ?_, ?_⟩
  · cases hd : getTree? s.objects (splitPath path) with
    | none =>
      constructor
      · intro h
        simp [Shelve.containsItem?, containsAt?, hd] at h
      · intro h
        obtain ⟨d, hd2, _⟩ := h
        exact absurd hd2 (by simp)
    | some d =>
      constructor
      · intro h
        have h2 : d.isLeafBook = true := by
          simpa [Shelve.containsItem?, containsAt?, hd] using h
        simp only [Node.isLeafBook, Bool.and_eq_true, beq_iff_eq] at h2
        exact ⟨d, rfl, h2.1, h2.2⟩
      · intro h
        obtain ⟨d2, hd2, hcount, hbook⟩ := h
        rw [Option.some_inj] at hd2
        subst hd2
        simp [Shelve.containsItem?, containsAt?, hd, Node.isLeafBook, hcount, hbook]
  · intro d hd hbook
    simp [Shelve.containsItem?, containsAt?, hd, Node.isLeafBook, hbook]
  · intro hd
    simp [Shelve.containsItem?, containsAt?, hd]

theorem C9_witness :
    ((Shelve.fresh true).setItem "a/b" "v").containsItem? "a/b" = some true :=
  (C9_theorem ((Shelve.fresh true).setItem "a/b" "v") "a/b").1.mpr
    ⟨Node.mk none (some (Book.mk "a/b" none (some "v") true)) .nil, rfl, rfl, rfl⟩

/-- C10: a set on a path that currently resolves to a container dict (child
entries, no record) clears the dict — silently discarding every record and
subtree below it from the in-memory cache — and installs a single fresh
dirty record holding the value; a subsequent get returns the value. -/
theorem C10_theorem (s : Shelve) (path v : String) (d : Node)
    (hd : getTree? s.objects (splitPath path) = some d)
    (hbook : d.book = none)
    (_hchildren : d.children ≠ .nil) :
    getTree? ((s.setItem path v).objects) (splitPath path)
      = some (Node.mk none (some (Book.mk path none (some v) true)) .nil) ∧
    (s.setItem path v).getItem? path = some (v, false) := by
  constructor
  · have hpoint := getTree?_setAt_point (splitPath path) s.objects path v d hd
    simp only [hbook] at hpoint
    simp only [Shelve.setItem]
    rw [hpoint]
    simp [setData]
  · simp only [Shelve.setItem, Shelve.getItem?]
    exact readAt?_setAt (splitPath path) s.objects path v

theorem C10_witness :
    getTree? ((((Shelve.fresh true).setItem "a/b" "w").setItem "a" "v").objects) ["a"]
      = some (Node.mk none (some (Book.mk "a" none (some "v") true)) .nil) := by
  have h := C10_theorem ((Shelve.fresh true).setItem "a/b" "w") "a" "v"
    (Node.mk none none
      (.cons "b" (Node.mk none (some (Book.mk "a/b" none (some "w") true)) .nil) .nil))
    rfl rfl (fun h => Entries.noConfusion h)
  exact h.1
